import Mathlib

/-
Verification of the DIN (Deep Interest Network) model definition in
src/my_model/DIN.py against its natural-language specification.

The numeric layers (LocalActivationUnit, AttentionPoolingLayer, Dice) are
embedded per batch example over exact rationals: a TensorFlow op that acts
element-wise along the batch axis is modelled on one example, tensors of
shape len x dim become List (List Q) (rows are sequence positions), and
tensors of shape dim become List Q.  Learned weights are parameters of the
Lean functions.  The graph-assembly functions (build_input_layers,
build_embedding_layers, embedding_lookup, concat_input_list,
concat_embedding_list, DIN) are embedded symbolically: a Keras tensor is a
node of the inductive type Tensor below, Python dicts are association
lists, and a Python KeyError / IndexError / Keras exception is Option.none.
-/

/-- A fully connected keras Dense layer as used in DIN.py, acting on the last
axis.  The kernel is stored transposed: kernelT has one row of input weights
per output unit, bias has one entry per output unit, and activation is the
pointwise activation function.  Weights are arbitrary parameters (learned at
training time). -/
structure DenseLayer where
  kernelT : List (List ℚ)
  bias : List ℚ
  activation : ℚ → ℚ

/-- Dot product of two rational vectors. -/
def dotQ (v w : List ℚ) : ℚ :=
  (List.zipWith (fun a b => a * b) v w).sum

/-- Applying a Dense layer to a single position's feature vector:
unit j outputs activation(x . kernelT[j] + bias[j]). -/
def DenseLayer.apply (d : DenseLayer) (x : List ℚ) : List ℚ :=
  List.zipWith (fun w b => d.activation (dotQ w x + b)) d.kernelT d.bias

/-- The number of output units of a Dense layer (its bias length). -/
def DenseLayer.units (d : DenseLayer) : ℕ :=
  d.bias.length

/-- Default hidden_units of LocalActivationUnit.__init__ in DIN.py
(hidden_units=(256, 128, 64)). -/
def default_att_hidden_units : List ℕ :=
  [256, 128, 64]

/-- Default hidden_units of get_dnn_logits in DIN.py (hidden_units=(200, 80)). -/
def default_dnn_hidden_units : List ℕ :=
  [200, 80]

/-- Models self.dnn = [Dense(unit, activation=...) for unit in hidden_units]
in LocalActivationUnit.__init__: one Dense layer per requested width, where
mk u stands for the keras Dense constructor called with u units. -/
def LocalActivationUnit.build_dnn (hidden_units : List ℕ) (mk : ℕ → DenseLayer) :
    List DenseLayer :=
  hidden_units.map mk

/-- The per-position attention input of LocalActivationUnit.call, line 97 of
DIN.py: tf.concat([queries, keys, queries - keys, queries * keys], axis=-1)
restricted to one sequence position (the query is broadcast to every
position by tf.tile, so each position sees the same query vector). -/
def att_input_vec (query key : List ℚ) : List ℚ :=
  query ++ key ++ List.zipWith (fun a b => a - b) query key
    ++ List.zipWith (fun a b => a * b) query key

/-- LocalActivationUnit.call of DIN.py on one batch example: query is the
candidate embedding (shape emb_dim), keys the history embeddings (shape
len x emb_dim).  Every Dense layer acts on the last axis, hence
position-wise; the final linear layer is Dense(1) and tf.squeeze(-1) turns
its singleton output into the position's scalar score. -/
def LocalActivationUnit.call (dnn : List DenseLayer) (linear : DenseLayer)
    (query : List ℚ) (keys : List (List ℚ)) : List ℚ :=
  keys.map (fun key =>
    let att_out := dnn.foldl (fun acc fc => fc.apply acc) (att_input_vec query key)
    (linear.apply att_out).headD 0)

/-- The validity mask of AttentionPoolingLayer.call, line 121 of DIN.py:
tf.not_equal(keys[:, :, 0], 0) — position i is valid iff the first
coordinate of its key embedding is nonzero. -/
def AttentionPoolingLayer.key_masks (keys : List (List ℚ)) : List Bool :=
  keys.map (fun key => decide (key.getD 0 0 ≠ 0))

/-- tf.matmul of a 1 x len score row with a len x D key matrix followed by
tf.squeeze, yielding the D-vector whose j-th entry is the w-weighted sum of
the keys' j-th coordinates.  D is the static embedding width carried by the
tensor shapes. -/
def rowMatmul (w : List ℚ) (keys : List (List ℚ)) (D : ℕ) : List ℚ :=
  (List.range D).map (fun j =>
    (List.zipWith (fun wi key => wi * key.getD j 0) w keys).sum)

/-- AttentionPoolingLayer.call of DIN.py on one batch example.  dnn and
linear are the weights of the owned LocalActivationUnit (self.local_att),
D the static embedding width.  Scores at masked positions are replaced by
the matching entry of the all-zero paddings tensor (tf.where), and the
masked scores are used directly as linear weights in a matrix product with
the keys — there is no softmax step. -/
def AttentionPoolingLayer.call (dnn : List DenseLayer) (linear : DenseLayer)
    (D : ℕ) (queries : List ℚ) (keys : List (List ℚ)) : List ℚ :=
  let key_masks := AttentionPoolingLayer.key_masks keys
  let attention_score := LocalActivationUnit.call dnn linear queries keys
  let paddings := attention_score.map (fun _ => (0 : ℚ))
  let outputs := List.zipWith (fun m sp => if m then sp.1 else sp.2)
    key_masks (attention_score.zip paddings)
  rowMatmul outputs keys D

/-- BatchNormalization(center=False, scale=False) of keras as owned by Dice,
per channel at inference: channel j is sent to (x_j - mean_j) / std_j with
no learned shift (beta) or scale (gamma); std_j stands for the square root
of the moving variance plus epsilon. -/
def batchNorm (moving_mean moving_std : List ℚ) (x : List ℚ) : List ℚ :=
  List.zipWith (fun xi ms => (xi - ms.1) / ms.2) x (moving_mean.zip moving_std)

/-- Dice.build of DIN.py: self.alpha = self.add_weight(shape=(input_shape[-1],)),
one learned alpha entry per channel of the input's last dimension, created
once the input width is known; init gives the (arbitrary) initial values. -/
def Dice.build_alpha (input_last_dim : ℕ) (init : ℕ → ℚ) : List ℚ :=
  (List.range input_last_dim).map init

/-- Dice.call of DIN.py on one feature vector: x_normed = self.bn(x),
x_p = tf.sigmoid(x_normed), result = self.alpha * (1.0 - x_p) * x + x_p * x,
all element-wise with alpha broadcast per channel.  The logistic function is
a parameter since it is a framework primitive. -/
def Dice.call (alpha moving_mean moving_std : List ℚ) (sigmoid : ℚ → ℚ)
    (x : List ℚ) : List ℚ :=
  let x_normed := batchNorm moving_mean moving_std x
  let x_p := x_normed.map sigmoid
  List.zipWith (fun ap xi => ap.1 * (1 - ap.2) * xi + ap.2 * xi)
    (alpha.zip x_p) x

/-- Restatement of the spec's description of Dice, channel by channel:
the gate p_j is the logistic of the normalized input and the output blends
alpha_j * (1 - p_j) * x_j with p_j * x_j. -/
def diceSpecChannel (alpha moving_mean moving_std : List ℚ) (sigmoid : ℚ → ℚ)
    (x : List ℚ) (j : ℕ) : ℚ :=
  let p := sigmoid ((x.getD j 0 - moving_mean.getD j 0) / moving_std.getD j 1)
  alpha.getD j 0 * (1 - p) * x.getD j 0 + p * x.getD j 0

/-- The feature descriptors of utils.py as used by DIN.py: SparseFeat. -/
structure SparseFeat where
  name : String
  vocabulary_size : ℕ
  embedding_dim : ℕ
deriving DecidableEq

/-- The feature descriptors of utils.py as used by DIN.py: DenseFeat. -/
structure DenseFeat where
  name : String
  dimension : ℕ
deriving DecidableEq

/-- The feature descriptors of utils.py as used by DIN.py: VarLenSparseFeat. -/
structure VarLenSparseFeat where
  name : String
  vocabulary_size : ℕ
  embedding_dim : ℕ
  maxlen : ℕ
deriving DecidableEq

/-- A feature column is one of the three descriptor variants; DIN.py
dispatches on the variant with isinstance checks. -/
inductive FeatureColumn where
  | sparse : SparseFeat → FeatureColumn
  | dense : DenseFeat → FeatureColumn
  | varlen : VarLenSparseFeat → FeatureColumn
deriving DecidableEq

/-- The name attribute shared by the three descriptor variants. -/
def fcName : FeatureColumn → String
  | .sparse f => f.name
  | .dense f => f.name
  | .varlen f => f.name

/-- isinstance(x, SparseFeat). -/
def isSparseFeat : FeatureColumn → Bool
  | .sparse _ => true
  | _ => false

/-- isinstance(x, DenseFeat). -/
def isDenseFeat : FeatureColumn → Bool
  | .dense _ => true
  | _ => false

/-- A symbolic Keras tensor of the DIN computation graph: an Input layer
output (with its name and declared width), the application of a named
embedding table, a Flatten, a Concatenate along an axis, an
AttentionPoolingLayer application to a query and a keys tensor, a Dense
layer of a given width, or the final Dense(1, activation=sigmoid) head. -/
inductive Tensor where
  | input : String → ℕ → Tensor
  | embed : String → Tensor → Tensor
  | flatten : Tensor → Tensor
  | concat : ℕ → List Tensor → Tensor
  | attentionPool : Tensor → Tensor → Tensor
  | dense : ℕ → Tensor → Tensor
  | dnnLogits : Tensor → Tensor

/-- The names of the embedding tables applied anywhere inside a symbolic
tensor: an embedding contributes to the model output exactly when its name
occurs here for the graph's output tensor. -/
def Tensor.embNames : Tensor → List String
  | .input _ _ => []
  | .embed n x => n :: x.embNames
  | .flatten x => x.embNames
  | .concat _ xs => xs.attach.foldr (fun x acc => x.1.embNames ++ acc) []
  | .attentionPool q k => q.embNames ++ k.embNames
  | .dense _ x => x.embNames
  | .dnnLogits x => x.embNames
decreasing_by
  all_goals simp_wf
  all_goals try omega
  have h := List.sizeOf_lt_of_mem x.2
  omega

/-- Python dict subscription d[k]: the value at the key, none when the key
is absent (a KeyError). -/
def dictGet {α : Type} (d : List (String × α)) (k : String) : Option α :=
  match d with
  | [] => none
  | (k', v) :: rest => if k' = k then some v else dictGet rest k

/-- The width of the Input layer DIN.py builds for a descriptor: shape (1,)
for SparseFeat, (dimension,) for DenseFeat, (maxlen,) for VarLenSparseFeat. -/
def input_shape : FeatureColumn → ℕ
  | .sparse _ => 1
  | .dense f => f.dimension
  | .varlen f => f.maxlen

/-- build_input_layers of DIN.py: one named Input layer per descriptor,
keyed by the descriptor's name, in declaration order. -/
def build_input_layers : List FeatureColumn → List (String × Tensor)
  | [] => []
  | fc :: rest =>
      (fcName fc, Tensor.input (fcName fc) (input_shape fc)) :: build_input_layers rest

/-- A keras Embedding layer as configured by build_embedding_layers:
input_dim is the number of table rows, output_dim the embedding width, and
mask_zero records whether index-0 lookups are recognized as maskable. -/
structure EmbeddingLayer where
  input_dim : ℕ
  output_dim : ℕ
  mask_zero : Bool
deriving DecidableEq

/-- build_embedding_layers of DIN.py: Embedding(vocabulary_size,
embedding_dim) for a SparseFeat, Embedding(vocabulary_size + 1,
embedding_dim, mask_zero=True) for a VarLenSparseFeat, nothing for a
DenseFeat. -/
def build_embedding_layers : List FeatureColumn → List (String × EmbeddingLayer)
  | [] => []
  | .sparse f :: rest =>
      (f.name, EmbeddingLayer.mk f.vocabulary_size f.embedding_dim false)
        :: build_embedding_layers rest
  | .varlen f :: rest =>
      (f.name, EmbeddingLayer.mk (f.vocabulary_size + 1) f.embedding_dim true)
        :: build_embedding_layers rest
  | .dense _ :: rest => build_embedding_layers rest

/-- embedding_lookup of DIN.py: for each requested feature name, subscript
the input-layer dict and the embedding-layer dict (none on a missing key,
Python's KeyError) and apply the embedding layer to the input tensor. -/
def embedding_lookup (feature_columns : List String)
    (input_layer_dict : List (String × Tensor))
    (embedding_layer_dict : List (String × EmbeddingLayer)) :
    Option (List Tensor) :=
  match feature_columns with
  | [] => some []
  | fc :: rest =>
      match dictGet input_layer_dict fc, dictGet embedding_layer_dict fc with
      | some _input, some _embed =>
          match embedding_lookup rest input_layer_dict embedding_layer_dict with
          | some tail => some (Tensor.embed fc _input :: tail)
          | none => none
      | _, _ => none

/-- concat_input_list of DIN.py: Concatenate(axis=1) when the list has more
than one tensor, the single tensor unchanged when it has exactly one, and
Python's None (here Option.none) when it is empty. -/
def concat_input_list (input_list : List Tensor) : Option Tensor :=
  let feature_nums := input_list.length
  if 1 < feature_nums then some (Tensor.concat 1 input_list)
  else if feature_nums = 1 then some (input_list.headD (Tensor.concat 1 []))
  else none

/-- concat_embedding_list of DIN.py: for each descriptor, subscript the two
dicts by the descriptor's name (none on a missing key, Python's KeyError),
apply the embedding layer to the input tensor and optionally Flatten the
result. -/
def concat_embedding_list (feature_columns : List FeatureColumn)
    (input_layer_dict : List (String × Tensor))
    (embedding_layer_dict : List (String × EmbeddingLayer))
    (flatten : Bool) : Option (List Tensor) :=
  match feature_columns with
  | [] => some []
  | fc :: rest =>
      match dictGet input_layer_dict (fcName fc),
            dictGet embedding_layer_dict (fcName fc) with
      | some _input, some _embed =>
          let embed := Tensor.embed (fcName fc) _input
          let embed := if flatten then Tensor.flatten embed else embed
          match concat_embedding_list rest input_layer_dict embedding_layer_dict
              flatten with
          | some tail => some (embed :: tail)
          | none => none
      | _, _ => none

/-- get_dnn_logits of DIN.py: the Dense stack of the given widths followed
by the Dense(1, activation=sigmoid) probability head, symbolically. -/
def get_dnn_logits (dnn_input : Tensor) (hidden_units : List ℕ) : Tensor :=
  Tensor.dnnLogits (hidden_units.foldl (fun acc u => Tensor.dense u acc) dnn_input)

/-- The loop of DIN.py lines 198-200: collect input_layer_dict[fc.name] for
every dense descriptor (none on a missing key, Python's KeyError). -/
def DIN_dense_loop (dense_feature_columns : List FeatureColumn)
    (input_layer_dict : List (String × Tensor)) : Option (List Tensor) :=
  match dense_feature_columns with
  | [] => some []
  | fc :: rest =>
      match dictGet input_layer_dict (fcName fc) with
      | some t =>
          match DIN_dense_loop rest input_layer_dict with
          | some tail => some (t :: tail)
          | none => none
      | none => none

/-- The loop of DIN.py lines 222-225: for i in range(len(keys_embed_list)),
pool query_embed_list[i] with keys_embed_list[i]; indexing
query_embed_list[i] past its end is Python's IndexError, hence none. -/
def DIN_seq_pool_loop : List Tensor → List Tensor → Option (List Tensor)
  | _, [] => some []
  | [], _ :: _ => none
  | q :: qs, k :: ks =>
      match DIN_seq_pool_loop qs ks with
      | some rest => some (Tensor.attentionPool q k :: rest)
      | none => none

/-- DIN of DIN.py, lines 186-237, as the symbolic output tensor of the
assembled model.  The final Concatenate(axis=1) on line 231 receives the
dense, sparse and pooled-sequence branches directly; when any of the three
is Python's None (empty constituent list), Keras raises on the None input,
modelled as none.  Any KeyError or IndexError in an earlier step likewise
yields none at the point the source would raise. -/
def DIN (feature_columns : List FeatureColumn)
    (behavior_feature_list behavior_seq_feature_list : List String) :
    Option Tensor :=
  let input_layer_dict := build_input_layers feature_columns
  let sparse_feature_columns := feature_columns.filter (fun x => isSparseFeat x)
  let dense_feature_columns := feature_columns.filter (fun x => isDenseFeat x)
  match DIN_dense_loop dense_feature_columns input_layer_dict with
  | none => none
  | some dense_inputs =>
    let dnn_dense_input := concat_input_list dense_inputs
    let embedding_layer_dict := build_embedding_layers feature_columns
    match concat_embedding_list sparse_feature_columns input_layer_dict
        embedding_layer_dict true with
    | none => none
    | some dnn_sparse_embed_input =>
      let dnn_sparse_input := concat_input_list dnn_sparse_embed_input
      match embedding_lookup behavior_feature_list input_layer_dict
          embedding_layer_dict with
      | none => none
      | some query_embed_list =>
        match embedding_lookup behavior_seq_feature_list input_layer_dict
            embedding_layer_dict with
        | none => none
        | some keys_embed_list =>
          match DIN_seq_pool_loop query_embed_list keys_embed_list with
          | none => none
          | some dnn_seq_input_list =>
            let dnn_seq_input := concat_input_list dnn_seq_input_list
            match dnn_dense_input, dnn_sparse_input, dnn_seq_input with
            | some d, some s, some q =>
                some (get_dnn_logits (Tensor.concat 1 [d, s, q])
                  default_dnn_hidden_units)
            | _, _, _ => none

/-- The feature schema of the spec's end-to-end scenario. -/
def scenario_feature_columns : List FeatureColumn :=
  [FeatureColumn.sparse (SparseFeat.mk "user_id" 100 8),
   FeatureColumn.varlen (VarLenSparseFeat.mk "history" 500 8 50),
   FeatureColumn.sparse (SparseFeat.mk "candidate_id" 500 8)]

lemma LocalActivationUnit.length_call (dnn : List DenseLayer) (linear : DenseLayer)
    (query : List ℚ) (keys : List (List ℚ)) :
    (LocalActivationUnit.call dnn linear query keys).length = keys.length := by
  simp [LocalActivationUnit.call]

lemma sum_zipWith_zero (w : List ℚ) (ks : List (List ℚ)) (j : ℕ)
    (h : ∀ a ∈ w, a = 0) :
    (List.zipWith (fun wi key => wi * key.getD j 0) w ks).sum = 0 := by
  induction w generalizing ks with
  | nil => simp
  | cons a w ih =>
    cases ks with
    | nil => simp
    | cons k ks =>
      simp only [List.zipWith_cons_cons, List.sum_cons]
      rw [h a (by simp), ih ks (fun b hb => h b (by simp [hb]))]
      ring

lemma sum_zipWith_single (w : List ℚ) (ks : List (List ℚ)) (i j : ℕ)
    (hiw : i < w.length) (hik : i < ks.length)
    (hz : ∀ l (hl : l < w.length), l ≠ i → w.get ⟨l, hl⟩ = 0) :
    (List.zipWith (fun wi key => wi * key.getD j 0) w ks).sum
      = w.get ⟨i, hiw⟩ * (ks.get ⟨i, hik⟩).getD j 0 := by
  induction w generalizing ks i with
  | nil => simp at hiw
  | cons a w ih =>
    cases ks with
    | nil => simp at hik
    | cons k ks =>
      cases i with
      | zero =>
        simp only [List.zipWith_cons_cons, List.sum_cons, List.get_cons_zero]
        have hrest : (List.zipWith (fun wi key => wi * key.getD j 0) w ks).sum = 0 := by
          apply sum_zipWith_zero
          intro b hb
          rw [List.mem_iff_get] at hb
          obtain ⟨⟨l, hl⟩, rfl⟩ := hb
          have := hz (l + 1) (by simpa using Nat.succ_lt_succ hl) (by omega)
          simpa using this
        rw [hrest]
        simp [List.get]
      | succ n =>
        simp only [List.zipWith_cons_cons, List.sum_cons, List.get_cons_succ]
        have ha : a = 0 := by
          have := hz 0 (by simp) (by omega)
          simpa using this
        rw [ha, ih ks n (by simpa using hiw) (by simpa using hik)
          (fun l hl hne => by
            have := hz (l + 1) (by simpa using Nat.succ_lt_succ hl) (by omega)
            simpa using this)]
        ring

lemma masked_outputs_zero (dnn : List DenseLayer) (linear : DenseLayer)
    (queries : List ℚ) (keys : List (List ℚ))
    (h : ∀ key ∈ keys, key.getD 0 0 = 0) :
    ∀ a ∈ List.zipWith (fun m sp => if m then sp.1 else sp.2)
      (AttentionPoolingLayer.key_masks keys)
      ((LocalActivationUnit.call dnn linear queries keys).zip
        ((LocalActivationUnit.call dnn linear queries keys).map (fun _ => (0 : ℚ)))),
      a = 0 := by
  intro a ha
  rw [List.mem_iff_getElem] at ha
  obtain ⟨l, hl, rfl⟩ := ha
  have hl' : l < keys.length := by
    simpa [List.length_zipWith, AttentionPoolingLayer.key_masks,
      LocalActivationUnit.length_call] using hl
  simp only [List.getElem_zipWith, List.getElem_zip, List.getElem_map,
    AttentionPoolingLayer.key_masks]
  have hk := h _ (List.getElem_mem hl')
  simp only [List.getD_eq_getElem?_getD] at hk
  simp [hk]

/-- C1: for every batch example in which every history position is masked
(the first coordinate of every key embedding is zero), the pooled output of
AttentionPoolingLayer is the all-zero D-vector, for every embedding width
D and any weights of the owned LocalActivationUnit: every attention score
is replaced by zero, so the score-times-keys matrix product is zero. -/
theorem C1_fully_masked_pooled_zero (dnn : List DenseLayer) (linear : DenseLayer)
    (D : ℕ) (queries : List ℚ) (keys : List (List ℚ))
    (h : ∀ key ∈ keys, key.getD 0 0 = 0) :
    AttentionPoolingLayer.call dnn linear D queries keys = List.replicate D 0 := by
  have hout := masked_outputs_zero dnn linear queries keys h
  simp only [AttentionPoolingLayer.call, rowMatmul]
  apply List.ext_getElem (by simp)
  intro n h1 h2
  simp only [List.getElem_map, List.getElem_range, List.getElem_replicate]
  exact sum_zipWith_zero _ _ _ hout

theorem C1_witness :
    (∀ key ∈ [[(0 : ℚ), 5], [0, 7], [0, 9]], key.getD 0 0 = 0)
    ∧ AttentionPoolingLayer.call [] (DenseLayer.mk [[1, 1]] [3] id) 2 [1, 1]
        [[(0 : ℚ), 5], [0, 7], [0, 9]] = List.replicate 2 0 :=
  ⟨by decide,
   C1_fully_masked_pooled_zero [] (DenseLayer.mk [[1, 1]] [3] id) 2 [1, 1]
     [[(0 : ℚ), 5], [0, 7], [0, 9]] (by decide)⟩

lemma outputs_single_support (dnn : List DenseLayer) (linear : DenseLayer)
    (queries : List ℚ) (keys : List (List ℚ)) (i l : ℕ)
    (hl : l < (List.zipWith (fun m sp => if m then sp.1 else sp.2)
      (AttentionPoolingLayer.key_masks keys)
      ((LocalActivationUnit.call dnn linear queries keys).zip
        ((LocalActivationUnit.call dnn linear queries keys).map
          (fun _ => (0 : ℚ))))).length)
    (hlk : l < keys.length)
    (hls : l < (LocalActivationUnit.call dnn linear queries keys).length)
    (hmask : ∀ hkl : l < keys.length,
      (decide ((keys.get ⟨l, hkl⟩).getD 0 0 ≠ 0) : Bool)
        = decide (l = i)) :
    (List.zipWith (fun m sp => if m then sp.1 else sp.2)
      (AttentionPoolingLayer.key_masks keys)
      ((LocalActivationUnit.call dnn linear queries keys).zip
        ((LocalActivationUnit.call dnn linear queries keys).map
          (fun _ => (0 : ℚ))))).get ⟨l, hl⟩
      = if l = i
        then (LocalActivationUnit.call dnn linear queries keys).get ⟨l, hls⟩
        else 0 := by
  have hm := hmask hlk
  simp only [List.get_eq_getElem, List.getElem_zipWith, List.getElem_zip,
    List.getElem_map, AttentionPoolingLayer.key_masks] at hm ⊢
  rw [hm]
  by_cases hli : l = i <;> simp [hli]

/-- C2: AttentionPoolingLayer replaces the attention scores at masked
positions with 0 and uses the masked score row directly as linear weights
in a matrix product with the keys, with no softmax; hence when exactly one
position i is unmasked, the pooled output is exactly the score at i times
the key embedding at i. -/
theorem C2_single_unmasked_linear (dnn : List DenseLayer) (linear : DenseLayer)
    (D : ℕ) (queries : List ℚ) (keys : List (List ℚ)) (i : ℕ)
    (hi : i < keys.length)
    (hval : (keys.get ⟨i, hi⟩).getD 0 0 ≠ 0)
    (hothers : ∀ l (hl : l < keys.length), l ≠ i → (keys.get ⟨l, hl⟩).getD 0 0 = 0)
    (hD : (keys.get ⟨i, hi⟩).length = D) :
    AttentionPoolingLayer.call dnn linear D queries keys
      = (keys.get ⟨i, hi⟩).map
          (fun c => (LocalActivationUnit.call dnn linear queries keys).getD i 0 * c) := by
  have hscorelen := LocalActivationUnit.length_call dnn linear queries keys
  have hmask : ∀ l (hkl : l < keys.length),
      (decide ((keys.get ⟨l, hkl⟩).getD 0 0 ≠ 0) : Bool) = decide (l = i) := by
    intro l hkl
    by_cases hli : l = i
    · subst hli
      simp only [List.getD_eq_getElem?_getD, List.get_eq_getElem] at hval
      simp [hval]
    · have ho := hothers l hkl hli
      simp only [List.getD_eq_getElem?_getD, List.get_eq_getElem] at ho
      simp [ho, hli]
  have hwlen : (List.zipWith (fun m sp => if m then sp.1 else sp.2)
      (AttentionPoolingLayer.key_masks keys)
      ((LocalActivationUnit.call dnn linear queries keys).zip
        ((LocalActivationUnit.call dnn linear queries keys).map
          (fun _ => (0 : ℚ))))).length = keys.length := by
    simp [List.length_zipWith, AttentionPoolingLayer.key_masks, hscorelen]
  have hiw : i < (List.zipWith (fun m sp => if m then sp.1 else sp.2)
      (AttentionPoolingLayer.key_masks keys)
      ((LocalActivationUnit.call dnn linear queries keys).zip
        ((LocalActivationUnit.call dnn linear queries keys).map
          (fun _ => (0 : ℚ))))).length := by
    rw [hwlen]; exact hi
  have hsum := fun j => sum_zipWith_single _ keys i j hiw hi (fun l hl hne => by
    rw [outputs_single_support dnn linear queries keys i l hl
      (by rw [hwlen] at hl; exact hl)
      (by rw [hwlen] at hl; rw [hscorelen]; exact hl)
      (fun hkl => hmask l hkl)]
    simp [hne])
  simp only [AttentionPoolingLayer.call, rowMatmul]
  apply List.ext_getElem (by
    rw [List.get_eq_getElem] at hD
    simp [hD])
  intro n h1 h2
  rw [List.length_map, List.length_range] at h1
  rw [List.length_map] at h2
  simp only [List.getElem_map, List.getElem_range]
  rw [hsum n]
  rw [outputs_single_support dnn linear queries keys i i hiw hi
    (by rw [hscorelen]; exact hi) (fun hkl => hmask i hkl)]
  simp only [if_pos rfl]
  have hscore : (LocalActivationUnit.call dnn linear queries keys).getD i 0
      = (LocalActivationUnit.call dnn linear queries keys).get ⟨i, by
          rw [hscorelen]; exact hi⟩ := by
    rw [List.getD_eq_getElem _ _ (by rw [hscorelen]; exact hi)]
    rfl
  simp only [if_true]
  congr 1
  · exact hscore.symm
  · exact List.getD_eq_getElem _ _ (by rw [hD]; exact h1)

theorem C2_witness :
    (0 : ℕ) < 2
    ∧ ([[(4 : ℚ), 5], [0, 7]].get ⟨0, by decide⟩).getD 0 0 ≠ 0
    ∧ AttentionPoolingLayer.call [] (DenseLayer.mk [[1, 1], [1, 1]] [0] id) 2
        [1, 1] [[(4 : ℚ), 5], [0, 7]]
      = ([[(4 : ℚ), 5], [0, 7]].get ⟨0, by decide⟩).map
          (fun c => (LocalActivationUnit.call []
            (DenseLayer.mk [[1, 1], [1, 1]] [0] id) [1, 1]
            [[(4 : ℚ), 5], [0, 7]]).getD 0 0 * c) :=
  ⟨by decide, by decide,
   C2_single_unmasked_linear [] (DenseLayer.mk [[1, 1], [1, 1]] [0] id) 2
     [1, 1] [[(4 : ℚ), 5], [0, 7]] 0 (by decide) (by decide)
     (by decide) (by decide)⟩


/-- C3: AttentionPoolingLayer computes its validity mask from the keys alone,
with one boolean per history position, and position i is valid (mask true)
exactly when the first coordinate of the key embedding at i is nonzero. -/
theorem C3_mask_first_coordinate (keys : List (List ℚ)) (i : ℕ)
    (hi : i < keys.length) :
    (AttentionPoolingLayer.key_masks keys).length = keys.length
    ∧ ((AttentionPoolingLayer.key_masks keys).get
        ⟨i, by simpa [AttentionPoolingLayer.key_masks] using hi⟩ = true
      ↔ (keys.get ⟨i, hi⟩).getD 0 0 ≠ 0) := by
  constructor
  · simp [AttentionPoolingLayer.key_masks]
  · simp [AttentionPoolingLayer.key_masks, List.get_eq_getElem, List.getElem_map]

theorem C3_witness :
    (1 : ℕ) < 2
    ∧ (AttentionPoolingLayer.key_masks [[(0 : ℚ), 3], [4, 5]]).length = 2
    ∧ ((AttentionPoolingLayer.key_masks [[(0 : ℚ), 3], [4, 5]]).get
        ⟨1, by decide⟩ = true
      ↔ ([[(0 : ℚ), 3], [4, 5]].get ⟨1, by decide⟩).getD 0 0 ≠ 0) :=
  ⟨by decide,
   (C3_mask_first_coordinate [[(0 : ℚ), 3], [4, 5]] 1 (by decide)).1,
   (C3_mask_first_coordinate [[(0 : ℚ), 3], [4, 5]] 1 (by decide)).2⟩

/-- C4: the Local Activation Unit broadcasts the query to every position and
builds a 4D-wide per-position vector (query, key, difference, product
concatenated); its Dense stack has by default one layer per width 256, 128,
64; and its output has one score per history position, for every history
length including zero. -/
theorem C4_local_activation_unit (D : ℕ) (dnn : List DenseLayer)
    (linear : DenseLayer) (query : List ℚ) (keys : List (List ℚ))
    (mk : ℕ → DenseLayer)
    (hq : query.length = D)
    (hmk : ∀ u, (mk u).units = u) :
    (∀ key ∈ keys, key.length = D → (att_input_vec query key).length = 4 * D)
    ∧ (LocalActivationUnit.call dnn linear query keys).length = keys.length
    ∧ (LocalActivationUnit.build_dnn default_att_hidden_units mk).map
        DenseLayer.units = [256, 128, 64]
    ∧ LocalActivationUnit.call dnn linear query [] = [] := by
  refine ⟨?_, ?_, ?_, ?_⟩
  · intro key _ hk
    simp [att_input_vec, hq, hk]
    omega
  · exact LocalActivationUnit.length_call dnn linear query keys
  · simp [LocalActivationUnit.build_dnn, default_att_hidden_units, hmk]
  · simp [LocalActivationUnit.call]

theorem C4_witness :
    ([(3 : ℚ), 4].length = 2
      ∧ (∀ u, (DenseLayer.mk (List.replicate u []) (List.replicate u 0) id).units = u))
    ∧ ((∀ key ∈ [[(1 : ℚ), 2]], key.length = 2
          → (att_input_vec [(3 : ℚ), 4] key).length = 4 * 2)
      ∧ (LocalActivationUnit.call [] (DenseLayer.mk [[1, 1]] [0] id)
          [(3 : ℚ), 4] [[(1 : ℚ), 2]]).length = [[(1 : ℚ), 2]].length
      ∧ (LocalActivationUnit.build_dnn default_att_hidden_units
          (fun u => DenseLayer.mk (List.replicate u []) (List.replicate u 0) id)).map
          DenseLayer.units = [256, 128, 64]
      ∧ LocalActivationUnit.call [] (DenseLayer.mk [[1, 1]] [0] id)
          [(3 : ℚ), 4] [] = []) :=
  ⟨⟨by decide, fun u => by simp [DenseLayer.units]⟩,
   C4_local_activation_unit 2 [] (DenseLayer.mk [[1, 1]] [0] id)
     [(3 : ℚ), 4] [[(1 : ℚ), 2]]
     (fun u => DenseLayer.mk (List.replicate u []) (List.replicate u 0) id)
     (by decide) (fun u => by simp [DenseLayer.units])⟩

/-- C9: the Dice activation's alpha is one learned parameter per channel of
the input's last dimension, created at build time, and each output channel
equals alpha * (1 - p) * x + p * x where p is the logistic of the input
normalized by the no-shift no-scale batch normalization. -/
theorem C9_dice_formula (alpha moving_mean moving_std : List ℚ)
    (sigmoid : ℚ → ℚ) (x : List ℚ) (d j : ℕ) (init : ℕ → ℚ)
    (ha : alpha.length = d) (hm : moving_mean.length = d)
    (hs : moving_std.length = d) (hx : x.length = d) (hj : j < d) :
    (Dice.build_alpha d init).length = d
    ∧ (Dice.call alpha moving_mean moving_std sigmoid x).getD j 0
        = diceSpecChannel alpha moving_mean moving_std sigmoid x j := by
  constructor
  · simp [Dice.build_alpha]
  · have hlen : (Dice.call alpha moving_mean moving_std sigmoid x).length = d := by
      simp [Dice.call, batchNorm, List.length_zipWith, ha, hm, hs, hx]
    rw [List.getD_eq_getElem _ _ (by rw [hlen]; exact hj)]
    simp only [Dice.call, batchNorm, List.getElem_zipWith, List.getElem_zip,
      List.getElem_map]
    simp only [diceSpecChannel]
    rw [List.getD_eq_getElem alpha _ (by rw [ha]; exact hj),
      List.getD_eq_getElem moving_mean _ (by rw [hm]; exact hj),
      List.getD_eq_getElem moving_std _ (by rw [hs]; exact hj),
      List.getD_eq_getElem x _ (by rw [hx]; exact hj)]

theorem C9_witness :
    ([(2 : ℚ)].length = 1 ∧ [(0 : ℚ)].length = 1 ∧ [(1 : ℚ)].length = 1
      ∧ [(5 : ℚ)].length = 1 ∧ (0 : ℕ) < 1)
    ∧ ((Dice.build_alpha 1 (fun _ => 0)).length = 1
      ∧ (Dice.call [(2 : ℚ)] [(0 : ℚ)] [(1 : ℚ)] (fun q => q * q) [(5 : ℚ)]).getD 0 0
          = diceSpecChannel [(2 : ℚ)] [(0 : ℚ)] [(1 : ℚ)] (fun q => q * q) [(5 : ℚ)] 0) :=
  ⟨⟨by decide, by decide, by decide, by decide, by decide⟩,
   C9_dice_formula [(2 : ℚ)] [(0 : ℚ)] [(1 : ℚ)] (fun q => q * q) [(5 : ℚ)] 1 0
     (fun _ => 0) (by decide) (by decide) (by decide) (by decide) (by decide)⟩

lemma mem_build_embedding_sparse (cols : List FeatureColumn) (f : SparseFeat)
    (hf : FeatureColumn.sparse f ∈ cols) :
    (f.name, EmbeddingLayer.mk f.vocabulary_size f.embedding_dim false)
      ∈ build_embedding_layers cols := by
  induction cols with
  | nil => simp at hf
  | cons c rest ih =>
    rw [List.mem_cons] at hf
    rcases hf with h | h
    · rw [← h]
      simp only [build_embedding_layers]
      exact List.mem_cons_self _ _
    · cases c with
      | sparse s =>
          simp only [build_embedding_layers]
          exact List.mem_cons_of_mem _ (ih h)
      | varlen v =>
          simp only [build_embedding_layers]
          exact List.mem_cons_of_mem _ (ih h)
      | dense d =>
          simp only [build_embedding_layers]
          exact ih h

lemma mem_build_embedding_varlen (cols : List FeatureColumn) (g : VarLenSparseFeat)
    (hg : FeatureColumn.varlen g ∈ cols) :
    (g.name, EmbeddingLayer.mk (g.vocabulary_size + 1) g.embedding_dim true)
      ∈ build_embedding_layers cols := by
  induction cols with
  | nil => simp at hg
  | cons c rest ih =>
    rw [List.mem_cons] at hg
    rcases hg with h | h
    · rw [← h]
      simp only [build_embedding_layers]
      exact List.mem_cons_self _ _
    · cases c with
      | sparse s =>
          simp only [build_embedding_layers]
          exact List.mem_cons_of_mem _ (ih h)
      | varlen v =>
          simp only [build_embedding_layers]
          exact List.mem_cons_of_mem _ (ih h)
      | dense d =>
          simp only [build_embedding_layers]
          exact ih h

/-- C6: build_embedding_layers creates, for every declared Sparse descriptor,
a table with exactly vocabulary_size rows and no zero-masking, and for every
declared VarLenSparse descriptor a table with exactly vocabulary_size + 1
rows configured with mask_zero, so index-0 lookups are recognized as
maskable. -/
theorem C6_embedding_table_sizes (cols : List FeatureColumn)
    (f : SparseFeat) (g : VarLenSparseFeat)
    (hf : FeatureColumn.sparse f ∈ cols) (hg : FeatureColumn.varlen g ∈ cols) :
    (f.name, EmbeddingLayer.mk f.vocabulary_size f.embedding_dim false)
      ∈ build_embedding_layers cols
    ∧ (g.name, EmbeddingLayer.mk (g.vocabulary_size + 1) g.embedding_dim true)
      ∈ build_embedding_layers cols :=
  ⟨mem_build_embedding_sparse cols f hf, mem_build_embedding_varlen cols g hg⟩

theorem C6_witness :
    (FeatureColumn.sparse (SparseFeat.mk "a" 7 3)
        ∈ [FeatureColumn.sparse (SparseFeat.mk "a" 7 3),
           FeatureColumn.varlen (VarLenSparseFeat.mk "b" 9 4 5)]
      ∧ FeatureColumn.varlen (VarLenSparseFeat.mk "b" 9 4 5)
        ∈ [FeatureColumn.sparse (SparseFeat.mk "a" 7 3),
           FeatureColumn.varlen (VarLenSparseFeat.mk "b" 9 4 5)])
    ∧ (("a", EmbeddingLayer.mk 7 3 false)
        ∈ build_embedding_layers
          [FeatureColumn.sparse (SparseFeat.mk "a" 7 3),
           FeatureColumn.varlen (VarLenSparseFeat.mk "b" 9 4 5)]
      ∧ ("b", EmbeddingLayer.mk 10 4 true)
        ∈ build_embedding_layers
          [FeatureColumn.sparse (SparseFeat.mk "a" 7 3),
           FeatureColumn.varlen (VarLenSparseFeat.mk "b" 9 4 5)]) :=
  ⟨⟨by decide, by decide⟩,
   C6_embedding_table_sizes
     [FeatureColumn.sparse (SparseFeat.mk "a" 7 3),
      FeatureColumn.varlen (VarLenSparseFeat.mk "b" 9 4 5)]
     (SparseFeat.mk "a" 7 3) (VarLenSparseFeat.mk "b" 9 4 5)
     (by decide) (by decide)⟩

/-- C8: concat_input_list returns None (here none) on an empty input list,
returns the single input unchanged on a one-element list, and returns the
Concatenate(axis=1) of the inputs on a longer list. -/
theorem C8_concat_input_list (ts : List Tensor) (t : Tensor) :
    concat_input_list ([] : List Tensor) = none
    ∧ concat_input_list [t] = some t
    ∧ (1 < ts.length → concat_input_list ts = some (Tensor.concat 1 ts)) := by
  refine ⟨rfl, by simp [concat_input_list], ?_⟩
  intro h
  simp [concat_input_list, h]

theorem C8_witness :
    concat_input_list ([] : List Tensor) = none
    ∧ concat_input_list [Tensor.input "a" 1] = some (Tensor.input "a" 1)
    ∧ (1 < [Tensor.input "a" 1, Tensor.input "b" 1].length
        ∧ concat_input_list [Tensor.input "a" 1, Tensor.input "b" 1]
          = some (Tensor.concat 1 [Tensor.input "a" 1, Tensor.input "b" 1])) :=
  ⟨(C8_concat_input_list [Tensor.input "a" 1, Tensor.input "b" 1]
      (Tensor.input "a" 1)).1,
   (C8_concat_input_list [Tensor.input "a" 1, Tensor.input "b" 1]
      (Tensor.input "a" 1)).2.1,
   by decide,
   (C8_concat_input_list [Tensor.input "a" 1, Tensor.input "b" 1]
      (Tensor.input "a" 1)).2.2 (by decide)⟩

lemma dictGet_none_of_not_mem {α : Type} (d : List (String × α)) (k : String)
    (h : k ∉ d.map Prod.fst) : dictGet d k = none := by
  induction d with
  | nil => rfl
  | cons p rest ih =>
    obtain ⟨k', v⟩ := p
    simp only [List.map_cons, List.mem_cons] at h
    push_neg at h
    simp only [dictGet]
    rw [if_neg (by exact fun he => h.1 he.symm)]
    exact ih h.2

lemma build_input_layers_keys (cols : List FeatureColumn) :
    (build_input_layers cols).map Prod.fst = cols.map fcName := by
  induction cols with
  | nil => rfl
  | cons c rest ih => simp [build_input_layers, ih]

lemma embedding_lookup_missing (names : List String)
    (idict : List (String × Tensor)) (edict : List (String × EmbeddingLayer))
    (nm : String) (hmem : nm ∈ names)
    (hnone : dictGet idict nm = none ∨ dictGet edict nm = none) :
    embedding_lookup names idict edict = none := by
  induction names with
  | nil => simp at hmem
  | cons fc rest ih =>
    rw [List.mem_cons] at hmem
    rcases hmem with h | h
    · subst h
      rcases hnone with h | h <;> simp [embedding_lookup, h]
    · cases h1 : dictGet idict fc with
      | none => simp [embedding_lookup, h1]
      | some t =>
        cases h2 : dictGet edict fc with
        | none => simp [embedding_lookup, h1, h2]
        | some e => simp [embedding_lookup, h1, h2, ih h]

lemma concat_embedding_list_missing (fcs : List FeatureColumn)
    (idict : List (String × Tensor)) (edict : List (String × EmbeddingLayer))
    (fl : Bool) (fc : FeatureColumn) (hmem : fc ∈ fcs)
    (hnone : dictGet idict (fcName fc) = none
      ∨ dictGet edict (fcName fc) = none) :
    concat_embedding_list fcs idict edict fl = none := by
  induction fcs with
  | nil => simp at hmem
  | cons c rest ih =>
    rw [List.mem_cons] at hmem
    rcases hmem with h | h
    · subst h
      rcases hnone with h | h <;> simp [concat_embedding_list, h]
    · cases h1 : dictGet idict (fcName c) with
      | none => simp [concat_embedding_list, h1]
      | some t =>
        cases h2 : dictGet edict (fcName c) with
        | none => simp [concat_embedding_list, h1, h2]
        | some e => simp [concat_embedding_list, h1, h2, ih h]

/-- C7: a feature name requested from embedding_lookup or
concat_embedding_list with no matching dictionary entry makes the whole
operation fail with a lookup error (none, Python's KeyError), and a name in
behavior_feature_list or behavior_seq_feature_list that is absent from the
feature schema aborts DIN model construction. -/
theorem C7_missing_name_aborts (names : List String)
    (idict : List (String × Tensor)) (edict : List (String × EmbeddingLayer))
    (fcs : List FeatureColumn) (fl : Bool) (nm : String)
    (cols : List FeatureColumn) (bfl bsl : List String) :
    (nm ∈ names
      → (dictGet idict nm = none ∨ dictGet edict nm = none)
      → embedding_lookup names idict edict = none)
    ∧ (∀ fc ∈ fcs,
        (dictGet idict (fcName fc) = none ∨ dictGet edict (fcName fc) = none)
        → concat_embedding_list fcs idict edict fl = none)
    ∧ ((nm ∈ bfl ∨ nm ∈ bsl) → nm ∉ cols.map fcName → DIN cols bfl bsl = none) := by
  refine ⟨fun hmem hnone => embedding_lookup_missing names idict edict nm hmem hnone,
    fun fc hmem hnone => concat_embedding_list_missing fcs idict edict fl fc hmem hnone,
    ?_⟩
  intro hmem hnot
  have hidict : dictGet (build_input_layers cols) nm = none := by
    apply dictGet_none_of_not_mem
    rw [build_input_layers_keys]
    exact hnot
  cases hdl : DIN_dense_loop (cols.filter fun x => isDenseFeat x)
      (build_input_layers cols) with
  | none => simp [DIN, hdl]
  | some dl =>
    cases hce : concat_embedding_list (cols.filter fun x => isSparseFeat x)
        (build_input_layers cols) (build_embedding_layers cols) true with
    | none => simp [DIN, hdl, hce]
    | some ce =>
      rcases hmem with hq | hk
      · have hql : embedding_lookup bfl (build_input_layers cols)
            (build_embedding_layers cols) = none :=
          embedding_lookup_missing bfl _ _ nm hq (Or.inl hidict)
        simp [DIN, hdl, hce, hql]
      · cases hql : embedding_lookup bfl (build_input_layers cols)
            (build_embedding_layers cols) with
        | none => simp [DIN, hdl, hce, hql]
        | some ql =>
          have hkl : embedding_lookup bsl (build_input_layers cols)
              (build_embedding_layers cols) = none :=
            embedding_lookup_missing bsl _ _ nm hk (Or.inl hidict)
          simp [DIN, hdl, hce, hql, hkl]

theorem C7_witness :
    ("x" ∈ ["x"]
      ∧ dictGet ([] : List (String × Tensor)) "x" = none
      ∧ FeatureColumn.sparse (SparseFeat.mk "x" 1 1)
          ∈ [FeatureColumn.sparse (SparseFeat.mk "x" 1 1)]
      ∧ "x" ∉ ([] : List FeatureColumn).map fcName)
    ∧ (embedding_lookup ["x"] [] [] = none
      ∧ concat_embedding_list [FeatureColumn.sparse (SparseFeat.mk "x" 1 1)]
          [] [] true = none
      ∧ DIN [] ["x"] [] = none) :=
  ⟨⟨by decide, rfl, by decide, by decide⟩,
   (C7_missing_name_aborts ["x"] [] []
       [FeatureColumn.sparse (SparseFeat.mk "x" 1 1)] true "x" [] ["x"] []).1
     (by decide) (Or.inl rfl),
   (C7_missing_name_aborts ["x"] [] []
       [FeatureColumn.sparse (SparseFeat.mk "x" 1 1)] true "x" [] ["x"] []).2.1
     (FeatureColumn.sparse (SparseFeat.mk "x" 1 1)) (by decide) (Or.inl rfl),
   (C7_missing_name_aborts ["x"] [] []
       [FeatureColumn.sparse (SparseFeat.mk "x" 1 1)] true "x" [] ["x"] []).2.2
     (Or.inl (by decide)) (by decide)⟩

/-- C5 counterexample: with the spec's end-to-end schema — only user_id
(Sparse), history (VarLenSparse) and candidate_id (Sparse), no Dense
feature — the DIN model does not build: the dense branch of the final
Concatenate is Python's None (concat_input_list of zero dense inputs), on
which Keras raises, so no output tensor (and no probabilities) exists. -/
theorem C5_counterexample :
    (DIN scenario_feature_columns ["candidate_id"] ["history"]).isSome = false := by
  rfl

/-- C5 as amended: for the spec's scenario schema, DIN model construction
aborts (the final concatenation receives the None produced by concatenating
the empty list of dense inputs) instead of building a model; consequently
no batch is ever scored. -/
theorem C5_scenario_aborts :
    DIN scenario_feature_columns ["candidate_id"] ["history"] = none := by
  rfl

lemma embNames_input (n : String) (s : ℕ) : (Tensor.input n s).embNames = [] := by
  simp [Tensor.embNames]

lemma embNames_embed (n : String) (x : Tensor) :
    (Tensor.embed n x).embNames = n :: x.embNames := by
  simp [Tensor.embNames]

lemma embNames_flatten (x : Tensor) :
    (Tensor.flatten x).embNames = x.embNames := by
  simp [Tensor.embNames]

lemma embNames_attentionPool (q k : Tensor) :
    (Tensor.attentionPool q k).embNames = q.embNames ++ k.embNames := by
  simp [Tensor.embNames]

lemma embNames_dense (u : ℕ) (x : Tensor) :
    (Tensor.dense u x).embNames = x.embNames := by
  simp [Tensor.embNames]

lemma embNames_dnnLogits (x : Tensor) :
    (Tensor.dnnLogits x).embNames = x.embNames := by
  simp [Tensor.embNames]

lemma mem_foldr_append {α : Type} (l : List α) (g : α → List String) (nm : String) :
    nm ∈ l.foldr (fun x acc => g x ++ acc) [] ↔ ∃ x ∈ l, nm ∈ g x := by
  induction l with
  | nil => simp
  | cons a l ih => simp [ih]

lemma mem_embNames_concat (ax : ℕ) (xs : List Tensor) (nm : String) :
    nm ∈ (Tensor.concat ax xs).embNames ↔ ∃ x ∈ xs, nm ∈ x.embNames := by
  have he : (Tensor.concat ax xs).embNames
      = xs.attach.foldr (fun x acc => x.1.embNames ++ acc) [] := by
    simp [Tensor.embNames]
  rw [he, mem_foldr_append]
  constructor
  · rintro ⟨x, _, hnm⟩
    exact ⟨x.1, x.2, hnm⟩
  · rintro ⟨x, hx, hnm⟩
    exact ⟨⟨x, hx⟩, List.mem_attach _ _, hnm⟩

lemma build_input_layers_values (cols : List FeatureColumn) (k : String)
    (t : Tensor) (h : dictGet (build_input_layers cols) k = some t) :
    t.embNames = [] := by
  induction cols with
  | nil => simp [build_input_layers, dictGet] at h
  | cons c rest ih =>
    simp only [build_input_layers, dictGet] at h
    by_cases hc : fcName c = k
    · rw [if_pos hc] at h
      cases h
      exact embNames_input _ _
    · rw [if_neg hc] at h
      exact ih h

lemma embedding_lookup_embNames (names : List String)
    (idict : List (String × Tensor)) (edict : List (String × EmbeddingLayer))
    (hid : ∀ k t, dictGet idict k = some t → t.embNames = [])
    (ts : List Tensor) (h : embedding_lookup names idict edict = some ts) :
    ∀ t ∈ ts, ∀ nm ∈ t.embNames, nm ∈ names := by
  induction names generalizing ts with
  | nil =>
    simp only [embedding_lookup, Option.some.injEq] at h
    subst h
    simp
  | cons fc rest ih =>
    simp only [embedding_lookup] at h
    cases h1 : dictGet idict fc with
    | none =>
        simp only [h1] at h
        exact Option.noConfusion h
    | some tin =>
      cases h2 : dictGet edict fc with
      | none =>
          simp only [h1, h2] at h
          exact Option.noConfusion h
      | some e =>
        cases h3 : embedding_lookup rest idict edict with
        | none =>
            simp only [h1, h2, h3] at h
            exact Option.noConfusion h
        | some tail =>
          simp only [h1, h2, h3, Option.some.injEq] at h
          subst h
          intro t ht nm hnm
          rcases List.mem_cons.mp ht with rfl | ht
          · rw [embNames_embed] at hnm
            rcases List.mem_cons.mp hnm with rfl | hnm
            · exact List.mem_cons_self _ _
            · rw [hid fc tin h1] at hnm
              simp at hnm
          · exact List.mem_cons_of_mem _ (ih tail h3 t ht nm hnm)

lemma concat_embedding_list_embNames (fcs : List FeatureColumn)
    (idict : List (String × Tensor)) (edict : List (String × EmbeddingLayer))
    (fl : Bool)
    (hid : ∀ k t, dictGet idict k = some t → t.embNames = [])
    (ts : List Tensor) (h : concat_embedding_list fcs idict edict fl = some ts) :
    ∀ t ∈ ts, ∀ nm ∈ t.embNames, nm ∈ fcs.map fcName := by
  induction fcs generalizing ts with
  | nil =>
    simp only [concat_embedding_list, Option.some.injEq] at h
    subst h
    simp
  | cons c rest ih =>
    simp only [concat_embedding_list] at h
    cases h1 : dictGet idict (fcName c) with
    | none =>
        simp only [h1] at h
        exact Option.noConfusion h
    | some tin =>
      cases h2 : dictGet edict (fcName c) with
      | none =>
          simp only [h1, h2] at h
          exact Option.noConfusion h
      | some e =>
        cases h3 : concat_embedding_list rest idict edict fl with
        | none =>
            simp only [h1, h2, h3] at h
            exact Option.noConfusion h
        | some tail =>
          simp only [h1, h2, h3, Option.some.injEq] at h
          subst h
          intro t ht nm hnm
          rcases List.mem_cons.mp ht with rfl | ht
          · have hemb : nm ∈ (Tensor.embed (fcName c) tin).embNames := by
              cases fl <;> simpa [embNames_flatten] using hnm
            rw [embNames_embed] at hemb
            rcases List.mem_cons.mp hemb with rfl | hemb
            · simp
            · rw [hid _ tin h1] at hemb
              simp at hemb
          · simp only [List.map_cons, List.mem_cons]
            exact Or.inr (ih tail h3 t ht nm hnm)

lemma DIN_dense_loop_embNames (dcols : List FeatureColumn)
    (idict : List (String × Tensor))
    (hid : ∀ k t, dictGet idict k = some t → t.embNames = [])
    (ts : List Tensor) (h : DIN_dense_loop dcols idict = some ts) :
    ∀ t ∈ ts, t.embNames = [] := by
  induction dcols generalizing ts with
  | nil =>
    simp only [DIN_dense_loop, Option.some.injEq] at h
    subst h
    simp
  | cons c rest ih =>
    simp only [DIN_dense_loop] at h
    cases h1 : dictGet idict (fcName c) with
    | none =>
        simp only [h1] at h
        exact Option.noConfusion h
    | some t0 =>
      cases h2 : DIN_dense_loop rest idict with
      | none =>
          simp only [h1, h2] at h
          exact Option.noConfusion h
      | some tail =>
        simp only [h1, h2, Option.some.injEq] at h
        subst h
        intro t ht
        rcases List.mem_cons.mp ht with rfl | ht
        · exact hid _ _ h1
        · exact ih tail h2 t ht

lemma DIN_seq_pool_loop_embNames (qs ks ps : List Tensor)
    (h : DIN_seq_pool_loop qs ks = some ps) :
    ∀ p ∈ ps, ∀ nm ∈ p.embNames,
      (∃ q ∈ qs, nm ∈ q.embNames) ∨ ∃ k ∈ ks, nm ∈ k.embNames := by
  induction ks generalizing qs ps with
  | nil =>
    simp only [DIN_seq_pool_loop, Option.some.injEq] at h
    subst h
    simp
  | cons k ks ih =>
    cases qs with
    | nil =>
        simp only [DIN_seq_pool_loop] at h
        exact Option.noConfusion h
    | cons q qs =>
      simp only [DIN_seq_pool_loop] at h
      cases h3 : DIN_seq_pool_loop qs ks with
      | none =>
          simp only [h3] at h
          exact Option.noConfusion h
      | some rest =>
        simp only [h3, Option.some.injEq] at h
        subst h
        intro p hp nm hnm
        rcases List.mem_cons.mp hp with rfl | hp
        · rw [embNames_attentionPool] at hnm
          rcases List.mem_append.mp hnm with hql | hkl
          · exact Or.inl ⟨q, by simp, hql⟩
          · exact Or.inr ⟨k, by simp, hkl⟩
        · rcases ih qs rest h3 p hp nm hnm with ⟨q0, hq0, hnm0⟩ | ⟨k0, hk0, hnm0⟩
          · exact Or.inl ⟨q0, by simp [hq0], hnm0⟩
          · exact Or.inr ⟨k0, by simp [hk0], hnm0⟩

lemma concat_input_list_embNames (l : List Tensor) (t : Tensor) (nm : String)
    (h : concat_input_list l = some t) (hnm : nm ∈ t.embNames) :
    ∃ x ∈ l, nm ∈ x.embNames := by
  simp only [concat_input_list] at h
  by_cases h1 : 1 < l.length
  · rw [if_pos h1] at h
    simp only [Option.some.injEq] at h
    subst h
    exact (mem_embNames_concat 1 l nm).mp hnm
  · rw [if_neg h1] at h
    by_cases h2 : l.length = 1
    · rw [if_pos h2] at h
      obtain ⟨x, rfl⟩ := List.length_eq_one.mp h2
      simp only [List.headD_cons, Option.some.injEq] at h
      subst h
      exact ⟨x, by simp, hnm⟩
    · rw [if_neg h2] at h
      simp at h

lemma varlen_not_sparse_name (cols : List FeatureColumn) (f : VarLenSparseFeat)
    (hnodup : (cols.map fcName).Nodup) (hf : FeatureColumn.varlen f ∈ cols)
    (hmem : f.name ∈ (cols.filter fun x => isSparseFeat x).map fcName) :
    False := by
  rw [List.mem_map] at hmem
  obtain ⟨c, hc, hname⟩ := hmem
  rw [List.mem_filter] at hc
  obtain ⟨hcmem, hcsp⟩ := hc
  cases c with
  | sparse g =>
    have heq := List.inj_on_of_nodup_map hnodup hcmem hf
      (by simpa [fcName] using hname)
    exact FeatureColumn.noConfusion heq
  | dense d => simp [isSparseFeat] at hcsp
  | varlen v => simp [isSparseFeat] at hcsp

/-- C10: in DIN assembly only SparseFeat descriptors enter the flattened
sparse-embedding branch (a VarLenSparse descriptor is never in that
filter), and a VarLenSparse feature whose name appears in neither
behavior list has its embedding applied nowhere in the output graph: it
contributes nothing to the model output. -/
theorem C10_unlisted_varlen_no_contribution (cols : List FeatureColumn)
    (bfl bsl : List String) (f : VarLenSparseFeat) (t : Tensor)
    (hmem : FeatureColumn.varlen f ∈ cols)
    (hnodup : (cols.map fcName).Nodup)
    (hq : f.name ∉ bfl) (hk : f.name ∉ bsl)
    (hdin : DIN cols bfl bsl = some t) :
    FeatureColumn.varlen f ∉ cols.filter (fun x => isSparseFeat x)
    ∧ f.name ∉ t.embNames := by
  constructor
  · intro hin
    rw [List.mem_filter] at hin
    simp [isSparseFeat] at hin
  · have hid : ∀ k t0, dictGet (build_input_layers cols) k = some t0
        → t0.embNames = [] :=
      fun k t0 h0 => build_input_layers_values cols k t0 h0
    simp only [DIN] at hdin
    cases hdl : DIN_dense_loop (cols.filter fun x => isDenseFeat x)
        (build_input_layers cols) with
    | none =>
        simp only [hdl] at hdin
        exact Option.noConfusion hdin
    | some dl =>
      simp only [hdl] at hdin
      cases hce : concat_embedding_list (cols.filter fun x => isSparseFeat x)
          (build_input_layers cols) (build_embedding_layers cols) true with
      | none =>
          simp only [hce] at hdin
          exact Option.noConfusion hdin
      | some ce =>
        simp only [hce] at hdin
        cases hql : embedding_lookup bfl (build_input_layers cols)
            (build_embedding_layers cols) with
        | none =>
            simp only [hql] at hdin
            exact Option.noConfusion hdin
        | some ql =>
          simp only [hql] at hdin
          cases hkl : embedding_lookup bsl (build_input_layers cols)
              (build_embedding_layers cols) with
          | none =>
              simp only [hkl] at hdin
              exact Option.noConfusion hdin
          | some kl =>
            simp only [hkl] at hdin
            cases hpl : DIN_seq_pool_loop ql kl with
            | none =>
                simp only [hpl] at hdin
                exact Option.noConfusion hdin
            | some pooled =>
              simp only [hpl] at hdin
              cases hcd : concat_input_list dl with
              | none =>
                  simp only [hcd] at hdin
                  exact Option.noConfusion hdin
              | some d =>
                simp only [hcd] at hdin
                cases hcs : concat_input_list ce with
                | none =>
                    simp only [hcs] at hdin
                    exact Option.noConfusion hdin
                | some s =>
                  simp only [hcs] at hdin
                  cases hcq : concat_input_list pooled with
                  | none =>
                      simp only [hcq] at hdin
                      exact Option.noConfusion hdin
                  | some sq =>
                    simp only [hcq, Option.some.injEq] at hdin
                    subst hdin
                    intro hcontra
                    simp only [get_dnn_logits, default_dnn_hidden_units,
                      List.foldl_cons, List.foldl_nil, embNames_dnnLogits,
                      embNames_dense] at hcontra
                    rcases (mem_embNames_concat 1 [d, s, sq] f.name).mp hcontra
                      with ⟨x, hx, hnmx⟩
                    rcases List.mem_cons.mp hx with rfl | hx
                    · obtain ⟨y, hy, hnmy⟩ :=
                        concat_input_list_embNames dl x f.name hcd hnmx
                      rw [DIN_dense_loop_embNames _ _ hid dl hdl y hy] at hnmy
                      simp at hnmy
                    · rcases List.mem_cons.mp hx with rfl | hx
                      · obtain ⟨y, hy, hnmy⟩ :=
                          concat_input_list_embNames ce x f.name hcs hnmx
                        exact varlen_not_sparse_name cols f hnodup hmem
                          (concat_embedding_list_embNames _ _ _ _ hid ce hce
                            y hy f.name hnmy)
                      · rcases List.mem_cons.mp hx with rfl | hx
                        · obtain ⟨y, hy, hnmy⟩ :=
                            concat_input_list_embNames pooled x f.name hcq hnmx
                          rcases DIN_seq_pool_loop_embNames ql kl pooled hpl
                              y hy f.name hnmy with ⟨q0, hq0, hnm0⟩ | ⟨k0, hk0, hnm0⟩
                          · exact hq (embedding_lookup_embNames bfl _ _ hid
                              ql hql q0 hq0 f.name hnm0)
                          · exact hk (embedding_lookup_embNames bsl _ _ hid
                              kl hkl k0 hk0 f.name hnm0)
                        · simp at hx

theorem C10_witness :
    (FeatureColumn.varlen (VarLenSparseFeat.mk "u" 20 4 5)
        ∈ [FeatureColumn.sparse (SparseFeat.mk "c" 10 4),
       FeatureColumn.dense (DenseFeat.mk "d" 1),
       FeatureColumn.varlen (VarLenSparseFeat.mk "h" 20 4 5),
       FeatureColumn.varlen (VarLenSparseFeat.mk "u" 20 4 5)]
      ∧ (([FeatureColumn.sparse (SparseFeat.mk "c" 10 4),
       FeatureColumn.dense (DenseFeat.mk "d" 1),
       FeatureColumn.varlen (VarLenSparseFeat.mk "h" 20 4 5),
       FeatureColumn.varlen (VarLenSparseFeat.mk "u" 20 4 5)]).map fcName).Nodup
      ∧ "u" ∉ ["c"] ∧ "u" ∉ ["h"]
      ∧ DIN [FeatureColumn.sparse (SparseFeat.mk "c" 10 4),
       FeatureColumn.dense (DenseFeat.mk "d" 1),
       FeatureColumn.varlen (VarLenSparseFeat.mk "h" 20 4 5),
       FeatureColumn.varlen (VarLenSparseFeat.mk "u" 20 4 5)] ["c"] ["h"] = some ((DIN [FeatureColumn.sparse (SparseFeat.mk "c" 10 4),
       FeatureColumn.dense (DenseFeat.mk "d" 1),
       FeatureColumn.varlen (VarLenSparseFeat.mk "h" 20 4 5),
       FeatureColumn.varlen (VarLenSparseFeat.mk "u" 20 4 5)] ["c"] ["h"]).getD (Tensor.input "z" 0)))
    ∧ (FeatureColumn.varlen (VarLenSparseFeat.mk "u" 20 4 5)
        ∉ ([FeatureColumn.sparse (SparseFeat.mk "c" 10 4),
       FeatureColumn.dense (DenseFeat.mk "d" 1),
       FeatureColumn.varlen (VarLenSparseFeat.mk "h" 20 4 5),
       FeatureColumn.varlen (VarLenSparseFeat.mk "u" 20 4 5)]).filter (fun x => isSparseFeat x)
      ∧ "u" ∉ (((DIN [FeatureColumn.sparse (SparseFeat.mk "c" 10 4),
       FeatureColumn.dense (DenseFeat.mk "d" 1),
       FeatureColumn.varlen (VarLenSparseFeat.mk "h" 20 4 5),
       FeatureColumn.varlen (VarLenSparseFeat.mk "u" 20 4 5)] ["c"] ["h"]).getD (Tensor.input "z" 0))).embNames) :=
  ⟨⟨by decide, by decide, by decide, by decide, by rfl⟩,
   C10_unlisted_varlen_no_contribution
     [FeatureColumn.sparse (SparseFeat.mk "c" 10 4),
       FeatureColumn.dense (DenseFeat.mk "d" 1),
       FeatureColumn.varlen (VarLenSparseFeat.mk "h" 20 4 5),
       FeatureColumn.varlen (VarLenSparseFeat.mk "u" 20 4 5)] ["c"] ["h"] (VarLenSparseFeat.mk "u" 20 4 5) ((DIN [FeatureColumn.sparse (SparseFeat.mk "c" 10 4),
       FeatureColumn.dense (DenseFeat.mk "d" 1),
       FeatureColumn.varlen (VarLenSparseFeat.mk "h" 20 4 5),
       FeatureColumn.varlen (VarLenSparseFeat.mk "u" 20 4 5)] ["c"] ["h"]).getD (Tensor.input "z" 0))
     (by decide) (by decide) (by decide) (by decide) (by rfl)⟩
